import Mathlib

/-!
Shallow embedding of the fluent CRUD builders of
`src/include/mysqlx/collection_crud.h` (mysql-connector-cpp), together with
the spec-described stage surfaces (`Limit`, `Offset`, `BindExec`,
`Executable`) that the header consumes from `common.h` / `task.h` /
`result.h`.

The embedding follows the source: builder facades become structures holding
the accumulated operation state, chained calls become functions on those
structures, and the stage-gated surface becomes an explicit state machine
whose transitions are the return types of the `do_*` hooks.
-/

namespace MysqlxCrud

/-- A document handed to `add`: either a JSON string or a `DbDoc` tree
(the tree is opaque to the builder; we model it by an identifier). -/
inductive Doc where
  | json (s : String)
  | dbdoc (d : Nat)
deriving DecidableEq, Repr

/-- State of a `CollectionAdd` operation (collection_crud.h lines 195-237):
the borrowed `Collection &m_coll` (modelled by the collection's identity)
and the `Executable` list of documents accumulated by `do_add`. -/
structure CollectionAdd where
  m_coll : Nat
  docs : List Doc
deriving DecidableEq, Repr

/-- `CollectionAdd::do_add` appends one document to the operation's list and
returns the same builder (`CollectionAdd&`). -/
def CollectionAdd.do_add (st : CollectionAdd) (d : Doc) : CollectionAdd :=
  { st with docs := st.docs ++ [d] }

/-- `CollectionAdd(CollectionAdd &&other)` (collection_crud.h lines 211-213):
the move constructor forwards the `Executable` state
(`Executable(std::move(other))`) and rebinds the same collection reference
(`Base(other.m_coll)`). -/
def CollectionAdd.moveCtor (other : CollectionAdd) : CollectionAdd :=
  { m_coll := other.m_coll, docs := other.docs }

/-- The entry-point builder `CollectionAddBase` (collection_crud.h lines
248-274): it carries only the collection reference; its surface has `add`
and no `execute`. -/
structure CollectionAddBase where
  m_coll : Nat
deriving DecidableEq, Repr

/-- `CollectionAddBase::do_add` builds a fresh `CollectionAdd` via the
private constructor `CollectionAdd(coll, doc)` (lines 223-229), which
starts from an initialized empty state and then runs `do_add(doc)`. -/
def CollectionAddBase.do_add (b : CollectionAddBase) (d : Doc) : CollectionAdd :=
  CollectionAdd.do_add { m_coll := b.m_coll, docs := [] } d

/-- The variadic `add(first, rest...)` of `CollectionAddInterface`
(collection_crud.h lines 164-180) on a `CollectionAdd`: it runs
`do_add(first)` and recurses on the remaining pack, left to right. -/
def CollectionAdd.addMany (st : CollectionAdd) : List Doc → CollectionAdd
  | [] => st
  | d :: ds => (st.do_add d).addMany ds

/-- The variadic `add(first, rest...)` started on the entry-point builder
`CollectionAddBase`: `do_add(first)` yields a `CollectionAdd`, and the rest
of the pack is folded into it. -/
def CollectionAddBase.addMany (b : CollectionAddBase) (d : Doc) (ds : List Doc) :
    CollectionAdd :=
  (b.do_add d).addMany ds

/-- The `CollectionAdd` values reachable from an entry-point builder `b`:
the first `add` on `b` creates one, and each further `add` or
move-construction yields another. `execute` is exposed exactly on these
values and on nothing reachable before the first `add`. -/
inductive ReachableAdd (b : CollectionAddBase) : CollectionAdd → Prop where
  | first (d : Doc) : ReachableAdd b (b.do_add d)
  | step (st : CollectionAdd) (d : Doc) :
      ReachableAdd b st → ReachableAdd b (st.do_add d)
  | move (st : CollectionAdd) :
      ReachableAdd b st → ReachableAdd b st.moveCtor

theorem CollectionAdd.addMany_docs (st : CollectionAdd) (ds : List Doc) :
    (st.addMany ds).docs = st.docs ++ ds := by
  induction ds generalizing st with
  | nil => simp [CollectionAdd.addMany]
  | cons d ds ih =>
      simp [CollectionAdd.addMany, ih, CollectionAdd.do_add, List.append_assoc]

theorem CollectionAdd.addMany_m_coll (st : CollectionAdd) (ds : List Doc) :
    (st.addMany ds).m_coll = st.m_coll := by
  induction ds generalizing st with
  | nil => rfl
  | cons d ds ih => simp [CollectionAdd.addMany, ih, CollectionAdd.do_add]

/-- A value bound to a named parameter. Modelled from the spec: `ExprValue`
is a tagged variant over scalars, documents, arrays and expression text;
the builder only stores it, so a few representative tags suffice. -/
inductive ExprValue where
  | vint (n : Int)
  | vstr (s : String)
deriving DecidableEq, Repr

/-- Modelled from the spec: the operation state of a Find builder
(`FindState`, §3). The `do_sort` / `do_limit` / `do_offset` / `bind` hook
bodies live in the implementation files and in `common.h` / `task.h`, which
are not under src; the spec states that sort appends in order without
deduplication, limit and offset overwrite, and bind inserts or overwrites
by name. -/
structure FindState where
  criteria : Option String := none
  sortKeys : List String := []
  limit : Option Nat := none
  offset : Option Nat := none
  bindings : List (String × ExprValue) := []
deriving DecidableEq, Repr

/-- `find(expr)` on a fresh builder: state with the filter set. -/
def findEntry (expr : String) : FindState :=
  { criteria := some expr }

/-- Modelled from the spec: `do_sort` appends one sort key, preserving
order and keeping duplicates. -/
def FindState.do_sort (st : FindState) (k : String) : FindState :=
  { st with sortKeys := st.sortKeys ++ [k] }

/-- Modelled from the spec: `do_limit` overwrites the limit field. -/
def FindState.do_limit (st : FindState) (n : Nat) : FindState :=
  { st with limit := some n }

/-- Modelled from the spec: `do_offset` overwrites the offset field. -/
def FindState.do_offset (st : FindState) (n : Nat) : FindState :=
  { st with offset := some n }

/-- Insert-or-overwrite into the binding table keyed by parameter name. -/
def bindInsert (bs : List (String × ExprValue)) (p : String) (v : ExprValue) :
    List (String × ExprValue) :=
  match bs with
  | [] => [(p, v)]
  | (q, w) :: rest =>
      if q = p then (q, v) :: rest else (q, w) :: bindInsert rest p v

/-- Look up a parameter in the binding table. -/
def bindLookup (bs : List (String × ExprValue)) (p : String) : Option ExprValue :=
  match bs with
  | [] => none
  | (q, w) :: rest => if q = p then some w else bindLookup rest p

/-- Modelled from the spec: `bind(name, value)` inserts or overwrites in
the binding table. -/
def FindState.bind (st : FindState) (p : String) (v : ExprValue) : FindState :=
  { st with bindings := bindInsert st.bindings p v }

/-- The variadic `CollectionSort::sort(ord, rest...)` (collection_crud.h
lines 312-317): `do_sort(ord); return sort(rest...);` — a left fold of
`do_sort` over the argument pack, and the single-argument `sort` overload
(lines 291-294) is one `do_sort` call. -/
def FindState.sortMany (st : FindState) : List String → FindState
  | [] => st
  | k :: ks => (st.do_sort k).sortMany ks

/-- The normalized CRUD request handed to the protocol encoder. Modelled
from the spec: {kind, filter?, sort[], limit?, offset?, bindings}. -/
structure WireReq where
  criteria : Option String
  sortKeys : List String
  limit : Option Nat
  offset : Option Nat
  bindings : List (String × ExprValue)
deriving DecidableEq, Repr

/-- Modelled from the spec: the encoder serializes the finalized find state
field by field; sort keys, limit, offset and bindings are carried as
accumulated. -/
def encodeFind (st : FindState) : WireReq :=
  { criteria := st.criteria
    sortKeys := st.sortKeys
    limit := st.limit
    offset := st.offset
    bindings := st.bindings }

theorem FindState.sortMany_sortKeys (st : FindState) (ks : List String) :
    (st.sortMany ks).sortKeys = st.sortKeys ++ ks := by
  induction ks generalizing st with
  | nil => simp [FindState.sortMany]
  | cons k ks ih =>
      simp [FindState.sortMany, ih, FindState.do_sort, List.append_assoc]

theorem FindState.sortMany_limit (st : FindState) (ks : List String) :
    (st.sortMany ks).limit = st.limit := by
  induction ks generalizing st with
  | nil => rfl
  | cons k ks ih => simp [FindState.sortMany, ih, FindState.do_sort]

theorem bindLookup_bindInsert (bs : List (String × ExprValue)) (p : String)
    (v : ExprValue) : bindLookup (bindInsert bs p v) p = some v := by
  induction bs with
  | nil => simp [bindInsert, bindLookup]
  | cons hd rest ih =>
      obtain ⟨q, w⟩ := hd
      by_cases hq : q = p
      · simp [bindInsert, bindLookup, hq]
      · simp [bindInsert, bindLookup, hq, ih]

/-!
Stage-gated call grammar. The surfaces and their transitions come from the
return types in the source: `FindExec` (collection_crud.h lines 384-393)
overrides `do_sort` returning `CollectionFindSort&`, `do_limit` returning
`Offset&` and `do_offset` returning `BindExec&`; `RemoveExec` (lines
336-342) and `CollectionModify` (lines 467-487) override `do_sort`
returning the respective `Limit<BindExec>` typedef and `do_limit` returning
`BindExec&`. `CollectionSort<R,H>` derives virtually from `H` (line 284),
so the sort surface also exposes the limit surface. Modelled from the spec:
the `Limit`, `Offset` and `BindExec` surfaces themselves (declared in
`common.h` / `task.h`, not under src) — each stage exposes its own method
and, by derivation, the later stages; `bind` returns the `BindExec`
surface and `execute` ends the chain.
-/

/-- The methods of the query-builder surfaces. -/
inductive CrudMethod where
  | sortM
  | limitM
  | offsetM
  | bindM
  | executeM
deriving DecidableEq, Repr

/-- The surfaces a Find chain can be at: `CollectionFindSort`, `Offset`
(returned by `do_limit`), `BindExec`, and the end of the chain after
`execute`. -/
inductive FindStage where
  | sortS
  | offsetS
  | bindS
  | doneS
deriving DecidableEq, Repr

/-- One call on a Find surface: `some` next surface when the method exists
on the current surface, `none` when the chain is unrepresentable. -/
def findStep : FindStage → CrudMethod → Option FindStage
  | .sortS, .sortM => some .sortS
  | .sortS, .limitM => some .offsetS
  | .sortS, .offsetM => some .bindS
  | .sortS, .bindM => some .bindS
  | .sortS, .executeM => some .doneS
  | .offsetS, .offsetM => some .bindS
  | .offsetS, .bindM => some .bindS
  | .offsetS, .executeM => some .doneS
  | .bindS, .bindM => some .bindS
  | .bindS, .executeM => some .doneS
  | _, _ => none

/-- A call chain is legal from a surface when every call exists on the
surface reached so far. -/
def findLegalFrom : FindStage → List CrudMethod → Bool
  | _, [] => true
  | s, m :: ms =>
      match findStep s m with
      | some s2 => findLegalFrom s2 ms
      | none => false

/-- A legal Find chain starts on the surface returned by `find()`,
`CollectionFindSort`. -/
def findLegal (ms : List CrudMethod) : Bool :=
  findLegalFrom FindStage.sortS ms

/-- The surfaces of a Remove or Modify chain: `CollectionSort` over
`Limit<BindExec>`, then `BindExec`, then the end of the chain; there is no
Offset surface. -/
inductive SlbStage where
  | sortS
  | bindS
  | doneS
deriving DecidableEq, Repr

/-- One call on a Remove/Modify surface: `do_sort` returns the sort
surface, `do_limit` returns `BindExec&` directly, `offset` exists on no
surface. -/
def slbStep : SlbStage → CrudMethod → Option SlbStage
  | .sortS, .sortM => some .sortS
  | .sortS, .limitM => some .bindS
  | .sortS, .bindM => some .bindS
  | .sortS, .executeM => some .doneS
  | .bindS, .bindM => some .bindS
  | .bindS, .executeM => some .doneS
  | _, _ => none

/-- Legality of a Remove/Modify chain from a surface. -/
def slbLegalFrom : SlbStage → List CrudMethod → Bool
  | _, [] => true
  | s, m :: ms =>
      match slbStep s m with
      | some s2 => slbLegalFrom s2 ms
      | none => false

/-- A legal Remove chain starts on `CollectionRemoveOrder`
(`RemoveExec`, collection_crud.h lines 333-342). -/
def removeLegal (ms : List CrudMethod) : Bool :=
  slbLegalFrom SlbStage.sortS ms

/-- A legal Modify chain starts on `CollectionModifySort`
(`CollectionModify`, collection_crud.h lines 422-487). -/
def modifyLegal (ms : List CrudMethod) : Bool :=
  slbLegalFrom SlbStage.sortS ms

/-- Position of a method in the canonical stage order
Sort, then Limit, then Offset, then Bind/Execute. -/
def methodRank : CrudMethod → Nat
  | .sortM => 0
  | .limitM => 1
  | .offsetM => 2
  | .bindM => 3
  | .executeM => 3

/-- The least rank of any method available on a Find surface. -/
def findMinRank : FindStage → Nat
  | .sortS => 0
  | .offsetS => 2
  | .bindS => 3
  | .doneS => 4

/-- The least rank of any method available on a Remove/Modify surface. -/
def slbMinRank : SlbStage → Nat
  | .sortS => 0
  | .bindS => 3
  | .doneS => 4

theorem findStep_rank (s : FindStage) (m : CrudMethod) (s2 : FindStage)
    (h : findStep s m = some s2) :
    findMinRank s ≤ methodRank m ∧ methodRank m ≤ findMinRank s2 := by
  revert h
  cases s <;> cases m <;> cases s2 <;> decide

theorem slbStep_rank (s : SlbStage) (m : CrudMethod) (s2 : SlbStage)
    (h : slbStep s m = some s2) :
    slbMinRank s ≤ methodRank m ∧ methodRank m ≤ slbMinRank s2 := by
  revert h
  cases s <;> cases m <;> cases s2 <;> decide

theorem chainLe_of_le {a b : Nat} {l : List Nat} (hab : a ≤ b)
    (h : List.Chain (fun x y => x ≤ y) b l) :
    List.Chain (fun x y => x ≤ y) a l := by
  cases h with
  | nil => exact List.Chain.nil
  | cons hbc hc => exact List.Chain.cons (le_trans hab hbc) hc

theorem findLegalFrom_chain (ms : List CrudMethod) :
    ∀ s, findLegalFrom s ms = true →
      List.Chain (fun x y => x ≤ y) (findMinRank s) (ms.map methodRank) := by
  induction ms with
  | nil => intro s _; exact List.Chain.nil
  | cons m ms ih =>
      intro s h
      simp only [findLegalFrom] at h
      cases hstep : findStep s m with
      | none => rw [hstep] at h; exact absurd h (by simp)
      | some s2 =>
          rw [hstep] at h
          obtain ⟨h1, h2⟩ := findStep_rank s m s2 hstep
          exact List.Chain.cons h1 (chainLe_of_le h2 (ih s2 h))

theorem slbLegalFrom_chain (ms : List CrudMethod) :
    ∀ s, slbLegalFrom s ms = true →
      List.Chain (fun x y => x ≤ y) (slbMinRank s) (ms.map methodRank) := by
  induction ms with
  | nil => intro s _; exact List.Chain.nil
  | cons m ms ih =>
      intro s h
      simp only [slbLegalFrom] at h
      cases hstep : slbStep s m with
      | none => rw [hstep] at h; exact absurd h (by simp)
      | some s2 =>
          rw [hstep] at h
          obtain ⟨h1, h2⟩ := slbStep_rank s m s2 hstep
          exact List.Chain.cons h1 (chainLe_of_le h2 (ih s2 h))

theorem slbLegalFrom_no_offset (ms : List CrudMethod) :
    ∀ s, slbLegalFrom s ms = true → CrudMethod.offsetM ∉ ms := by
  induction ms with
  | nil => intro s _ hmem; exact absurd hmem (List.not_mem_nil _)
  | cons m ms ih =>
      intro s h hmem
      simp only [slbLegalFrom] at h
      cases hstep : slbStep s m with
      | none => rw [hstep] at h; exact absurd h (by simp)
      | some s2 =>
          rw [hstep] at h
          rcases List.mem_cons.mp hmem with hm | hm
          · subst hm
            cases s <;> simp [slbStep] at hstep
          · exact ih s2 h hm

/-!
The iterable overload of `CollectionSort::sort` (collection_crud.h lines
301-310):

    template <typename Ord>
    R& sort(Ord ord)
    {
      R* ret = NULL;
      for(auto el : ord)
      {
        ret = &do_sort(ord);
      }
      return *ret;
    }

The loop body passes the whole iterable `ord` to `do_sort`, once per
element, never the element `el`; and when `ord` is empty the function
returns `*ret` with `ret` still `NULL`.
-/

/-- What a `do_sort` call site can receive: a single key, or — as in the
loop above — the whole iterable where a key is expected. -/
inductive SortArg where
  | key (s : String)
  | iter (ks : List String)
deriving DecidableEq, Repr

/-- The loop of the iterable `sort` overload. The state pairs the sort-key
list accumulated by `do_sort` with the flag that `ret` has been set; each
iteration consumes one element of the iterable but hands `do_sort` the
whole iterable `ord`. -/
def sortIterLoop (ord : List String) :
    List String → List SortArg × Bool → List SortArg × Bool
  | [], st => st
  | _ :: els, (acc, _) => sortIterLoop ord els (acc ++ [SortArg.iter ord], true)

/-- The iterable `sort` overload: run the loop over `ord` starting from the
builder's current keys with `ret = NULL`; returning `*ret` is well-defined
only when some iteration set `ret`, so the untouched-`NULL` branch is
`none`. -/
def sortIterOverload (ord : List String) (acc : List SortArg) :
    Option (List SortArg) :=
  match sortIterLoop ord ord (acc, false) with
  | (acc2, true) => some acc2
  | (_, false) => none

theorem sortIterLoop_spec (ord : List String) (els : List String)
    (acc : List SortArg) (b : Bool) :
    sortIterLoop ord els (acc, b) =
      (acc ++ List.replicate els.length (SortArg.iter ord),
       if els.isEmpty then b else true) := by
  induction els generalizing acc b with
  | nil => simp [sortIterLoop]
  | cons e els ih =>
      simp [sortIterLoop, ih, List.replicate_succ, List.append_assoc]

/-!
Executable state and `execute`. Modelled from the spec: the `Executable`
base class is declared in `task.h` / `result.h`, not under src; §3
invariant 5, §4.4 and §8 scenario 6 define its behavior: an operation
state is single-shot; executing a moved-from or already-executed state
fails with StageMisuse before any wire I/O, unless every mutation since
the previous execute was a `bind` (a rebind), in which case execute is
accepted again and yields a fresh Result.
-/

/-- The error kinds of §7. -/
inductive ErrorKind where
  | InvalidArgument
  | StageMisuse
  | EmptyBatch
  | UnresolvedBinding
  | CollectionGone
  | Transport
  | ServerError
  | Cancelled
deriving DecidableEq, Repr

/-- A mutation applied to an executable state: a `bind(name, value)` call
or any non-bind configuration call. -/
inductive Mutation where
  | bindMut (p : String) (v : ExprValue)
  | otherMut
deriving DecidableEq, Repr

/-- Whether a mutation is a `bind` call. -/
def Mutation.isBind : Mutation → Bool
  | .bindMut _ _ => true
  | .otherMut => false

/-- Modelled from the spec: the bookkeeping of one executable operation
state — the moved-from flag, whether it has been executed successfully,
the mutations applied since the previous successful execute, and the
counter producing fresh Result handles. -/
structure ExecState where
  moved : Bool := false
  executed : Bool := false
  mutsSinceExec : List Mutation := []
  nextResult : Nat := 0
deriving DecidableEq, Repr

/-- Record one configuration call on the state. -/
def ExecState.applyMut (s : ExecState) (m : Mutation) : ExecState :=
  { s with mutsSinceExec := s.mutsSinceExec ++ [m] }

/-- A re-execution is a rebind exactly when at least one mutation occurred
since the previous execute and all of them were `bind` calls. -/
def ExecState.rebindOnly (s : ExecState) : Bool :=
  !s.mutsSinceExec.isEmpty && s.mutsSinceExec.all Mutation.isBind

/-- The bookkeeping state after a successful execute: executed, with the
mutation log cleared and the next Result handle consumed. -/
def ExecState.afterExec (s : ExecState) : ExecState :=
  { s with executed := true, mutsSinceExec := [],
           nextResult := s.nextResult + 1 }

/-- Modelled from the spec: `execute()` — reject a moved-from state and a
non-rebind re-execution with StageMisuse and no wire I/O; otherwise submit
one wire request and return a fresh Result handle. The third component is
the wire traffic of this call. -/
def ExecState.execute (s : ExecState) :
    Except ErrorKind Nat × ExecState × List String :=
  if s.moved then
    (Except.error ErrorKind.StageMisuse, s, [])
  else if s.executed && !s.rebindOnly then
    (Except.error ErrorKind.StageMisuse, s, [])
  else
    (Except.ok s.nextResult, s.afterExec, ["submit"])

/-- Modelled from the spec: the wire request of an Add operation carries
the accumulated document list, in order. -/
def encodeAdd (st : CollectionAdd) : List Doc :=
  st.docs

/-- The variadic `add` as N explicit sequential single-`add` calls: a left
fold of `do_add`. -/
def CollectionAdd.addSeq (st : CollectionAdd) (ds : List Doc) : CollectionAdd :=
  List.foldl CollectionAdd.do_add st ds

theorem CollectionAdd.addMany_eq_addSeq (st : CollectionAdd) (ds : List Doc) :
    st.addMany ds = st.addSeq ds := by
  induction ds generalizing st with
  | nil => rfl
  | cons d ds ih => simp [CollectionAdd.addMany, CollectionAdd.addSeq,
      List.foldl_cons, ih]

/-- The state reached by the chain
`find(expr).sort(k1)...sort(kM).limit(L).offset(O).bind(p, v)`. -/
def findChain (expr : String) (ks : List String) (L O : Nat) (p : String)
    (v : ExprValue) : FindState :=
  ((((findEntry expr).sortMany ks).do_limit L).do_offset O).bind p v

/-!
Claim theorems.
-/

/-- C1: an Add operation with an empty document list is never executable:
`CollectionAddBase` exposes only `add` (it has no Executable state at all in
the embedding), and every `CollectionAdd` value reachable from it — the only
surface exposing `execute` — carries at least one document. -/
theorem add_execute_nonempty (b : CollectionAddBase) (st : CollectionAdd)
    (h : ReachableAdd b st) : 1 ≤ st.docs.length := by
  induction h with
  | first d =>
      simp [CollectionAddBase.do_add, CollectionAdd.do_add]
  | step st d hr ih =>
      simp [CollectionAdd.do_add]
  | move st hr ih =>
      simpa [CollectionAdd.moveCtor] using ih

theorem add_execute_nonempty_witness :
    1 ≤ ((CollectionAddBase.mk 0).do_add (Doc.json "j")).docs.length :=
  add_execute_nonempty (CollectionAddBase.mk 0)
    ((CollectionAddBase.mk 0).do_add (Doc.json "j"))
    (ReachableAdd.first (Doc.json "j"))

/-- C2: the variadic `add(d1, ..., dN)` equals the N sequential `add`
calls, and on a fresh Add builder the operation state and the wire request
carry exactly those N documents in declaration order. -/
theorem add_variadic_eq_sequential (b : CollectionAddBase) (d : Doc)
    (ds : List Doc) :
    b.addMany d ds = (b.do_add d).addSeq ds ∧
    (b.addMany d ds).docs = d :: ds ∧
    encodeAdd (b.addMany d ds) = d :: ds := by
  refine ⟨CollectionAdd.addMany_eq_addSeq _ _, ?_, ?_⟩ <;>
  · show ((b.do_add d).addMany ds).docs = d :: ds
    rw [CollectionAdd.addMany_docs]
    simp [CollectionAddBase.do_add, CollectionAdd.do_add]

/-- C3: every legal Find chain is monotone in the stage order Sort, then
Limit, then Offset, then Bind/Execute — with `do_limit` returning the
Offset surface and `do_offset` returning the BindExec surface — and every
legal Remove or Modify chain is monotone in Sort, then Limit, then
Bind/Execute and never contains `offset`. -/
theorem crud_stage_order (ms : List CrudMethod) :
    (findLegal ms = true → List.Sorted (· ≤ ·) (ms.map methodRank)) ∧
    (removeLegal ms = true →
      List.Sorted (· ≤ ·) (ms.map methodRank) ∧ CrudMethod.offsetM ∉ ms) ∧
    (modifyLegal ms = true →
      List.Sorted (· ≤ ·) (ms.map methodRank) ∧ CrudMethod.offsetM ∉ ms) ∧
    findStep FindStage.sortS CrudMethod.limitM = some FindStage.offsetS ∧
    findStep FindStage.offsetS CrudMethod.offsetM = some FindStage.bindS := by
  refine ⟨?_, ?_, ?_, rfl, rfl⟩
  · intro h
    exact (List.chain_iff_pairwise.mp
      (findLegalFrom_chain ms FindStage.sortS h)).of_cons
  · intro h
    exact ⟨(List.chain_iff_pairwise.mp
      (slbLegalFrom_chain ms SlbStage.sortS h)).of_cons,
      slbLegalFrom_no_offset ms SlbStage.sortS h⟩
  · intro h
    exact ⟨(List.chain_iff_pairwise.mp
      (slbLegalFrom_chain ms SlbStage.sortS h)).of_cons,
      slbLegalFrom_no_offset ms SlbStage.sortS h⟩

theorem crud_stage_order_witness :
    List.Sorted (· ≤ ·) (List.map methodRank
      [CrudMethod.sortM, CrudMethod.limitM, CrudMethod.offsetM,
       CrudMethod.bindM, CrudMethod.executeM]) ∧
    (List.Sorted (· ≤ ·) (List.map methodRank
      [CrudMethod.sortM, CrudMethod.limitM, CrudMethod.bindM,
       CrudMethod.executeM]) ∧
     CrudMethod.offsetM ∉ [CrudMethod.sortM, CrudMethod.limitM,
       CrudMethod.bindM, CrudMethod.executeM]) ∧
    (List.Sorted (· ≤ ·) (List.map methodRank
      [CrudMethod.sortM, CrudMethod.limitM, CrudMethod.bindM,
       CrudMethod.executeM]) ∧
     CrudMethod.offsetM ∉ [CrudMethod.sortM, CrudMethod.limitM,
       CrudMethod.bindM, CrudMethod.executeM]) :=
  ⟨(crud_stage_order [CrudMethod.sortM, CrudMethod.limitM, CrudMethod.offsetM,
      CrudMethod.bindM, CrudMethod.executeM]).1 (by decide),
   (crud_stage_order [CrudMethod.sortM, CrudMethod.limitM, CrudMethod.bindM,
      CrudMethod.executeM]).2.1 (by decide),
   (crud_stage_order [CrudMethod.sortM, CrudMethod.limitM, CrudMethod.bindM,
      CrudMethod.executeM]).2.2.1 (by decide)⟩

/-- C4: the iterable `sort` overload, evaluated at the two-element iterable
`["a", "b"]` on a fresh builder, hands `do_sort` the whole iterable once
per element instead of appending each element as its own key: the claimed
per-element result would be `[key "a", key "b"]`. -/
theorem sort_iterable_bug_eval :
    sortIterOverload ["a", "b"] [] =
      some [SortArg.iter ["a", "b"], SortArg.iter ["a", "b"]] ∧
    sortIterOverload ["a", "b"] [] ≠
      some (List.map SortArg.key ["a", "b"]) := by
  constructor <;> decide

/-- C5: sort keys accumulate across variadic calls and chained calls in
declaration order with no deduplication, and the encoded request of a full
`find.sort.limit.offset.bind` chain carries the keys in that order together
with the limit, the offset and the binding. -/
theorem sort_keys_accumulate (st : FindState) (ks ks2 : List String)
    (expr : String) (L O : Nat) (p : String) (v : ExprValue) :
    ((st.sortMany ks).sortMany ks2).sortKeys = st.sortKeys ++ ks ++ ks2 ∧
    (encodeFind (findChain expr ks L O p v)).sortKeys = ks ∧
    (encodeFind (findChain expr ks L O p v)).limit = some L ∧
    (encodeFind (findChain expr ks L O p v)).offset = some O ∧
    bindLookup (encodeFind (findChain expr ks L O p v)).bindings p = some v := by
  refine ⟨?_, ?_, rfl, rfl, ?_⟩
  · rw [FindState.sortMany_sortKeys, FindState.sortMany_sortKeys,
      List.append_assoc]
  · simp [findChain, encodeFind, FindState.bind, FindState.do_offset,
      FindState.do_limit, FindState.sortMany_sortKeys, findEntry]
  · simp only [findChain, encodeFind, FindState.bind]
    exact bindLookup_bindInsert _ _ _

/-- C6: `limit(a).limit(b)` leaves `limit = b` in the state and in the
encoded request; the same last-write-wins overwrite holds for two `offset`
calls and for two `bind` calls with the same parameter name. -/
theorem last_write_wins (st : FindState) (a b o1 o2 : Nat) (p : String)
    (v w : ExprValue) :
    ((st.do_limit a).do_limit b).limit = some b ∧
    (encodeFind ((st.do_limit a).do_limit b)).limit = some b ∧
    ((st.do_offset o1).do_offset o2).offset = some o2 ∧
    (encodeFind ((st.do_offset o1).do_offset o2)).offset = some o2 ∧
    bindLookup ((st.bind p v).bind p w).bindings p = some w := by
  refine ⟨rfl, rfl, rfl, rfl, ?_⟩
  show bindLookup (bindInsert (bindInsert st.bindings p v) p w) p = some w
  exact bindLookup_bindInsert _ _ _

/-- C7: `execute` on a moved-from state, or on an already-executed state
whose mutations since the previous execute are not a non-empty, bind-only
sequence, fails with StageMisuse and performs no wire I/O; an accepted
execute of an already-executed state implies every mutation since the
previous one was a bind, and any accepted execute yields a fresh Result. -/
theorem execute_single_shot (s : ExecState) :
    (s.moved = true → s.execute = (Except.error ErrorKind.StageMisuse, s, [])) ∧
    (s.moved = false → s.executed = true → s.rebindOnly = false →
      s.execute = (Except.error ErrorKind.StageMisuse, s, [])) ∧
    (s.moved = false → s.rebindOnly = true →
      s.execute = (Except.ok s.nextResult, s.afterExec, ["submit"])) ∧
    (∀ r s2 wire, s.execute = (Except.ok r, s2, wire) →
      (s.executed = true →
        s.mutsSinceExec ≠ [] ∧ ∀ m ∈ s.mutsSinceExec, m.isBind = true) ∧
      r = s.nextResult ∧ s2.nextResult = s.nextResult + 1 ∧
      s2.executed = true) := by
  refine ⟨?_, ?_, ?_, ?_⟩
  · intro hm
    simp [ExecState.execute, hm]
  · intro hm he hr
    simp [ExecState.execute, hm, he, hr]
  · intro hm hr
    simp [ExecState.execute, hm, hr]
  · intro r s2 wire h
    rw [ExecState.execute] at h
    split_ifs at h with hm hx
    · simp at h
    · simp at h
    · have hr : r = s.nextResult := by
        have hfst := congrArg Prod.fst h
        simpa using hfst.symm
      have hs2 : s2 = s.afterExec := by
        have hsnd := congrArg (fun t => t.2.1) h
        simpa using hsnd.symm
      refine ⟨?_, hr, ?_, ?_⟩
      · intro he
        have hrb : s.rebindOnly = true := by
          cases hb : s.rebindOnly with
          | false => exact absurd (by simp [he, hb]) hx
          | true => rfl
        unfold ExecState.rebindOnly at hrb
        rw [Bool.and_eq_true] at hrb
        obtain ⟨hne, hall⟩ := hrb
        constructor
        · intro hnil
          rw [hnil] at hne
          simp at hne
        · intro m hmem
          exact List.all_eq_true.mp hall m hmem
      · rw [hs2]
        rfl
      · rw [hs2]
        rfl

theorem execute_single_shot_witness :
    ExecState.execute { moved := true } =
      (Except.error ErrorKind.StageMisuse, { moved := true : ExecState }, []) ∧
    ExecState.execute { executed := true } =
      (Except.error ErrorKind.StageMisuse, { executed := true : ExecState }, []) ∧
    ExecState.execute
        { executed := true,
          mutsSinceExec := [Mutation.bindMut "p" (ExprValue.vint 3)] } =
      (Except.ok 0,
       ExecState.afterExec
         { executed := true,
           mutsSinceExec := [Mutation.bindMut "p" (ExprValue.vint 3)] },
       ["submit"]) :=
  ⟨(execute_single_shot { moved := true }).1 rfl,
   (execute_single_shot { executed := true }).2.1 rfl rfl rfl,
   (execute_single_shot
     { executed := true,
       mutsSinceExec := [Mutation.bindMut "p" (ExprValue.vint 3)] }).2.2.1
     rfl (by decide)⟩

/-- C8: the iterable `sort` overload leaves its result pointer null exactly
when the iterable is empty: the `none` branch of the embedding is reached
if and only if the input iterable has no elements, so well-definedness of
every call requires a non-empty iterable. -/
theorem sort_iterable_empty_null (ord : List String) (acc : List SortArg) :
    sortIterOverload ord acc = none ↔ ord = [] := by
  cases ord with
  | nil =>
      simp [sortIterOverload, sortIterLoop]
  | cons e els =>
      simp [sortIterOverload, sortIterLoop_spec]

/-- C9: stages are skippable forward — prefixing a legal chain with `sort`
never changes legality, and `limit`, `offset`, `bind`, `execute` are all
available with no preceding `sort` on Find, Remove and Modify — while
backward reordering such as `sort` after `limit`, or `limit` after
`offset`, is unrepresentable. -/
theorem stages_skippable :
    (∀ ms, findLegal (CrudMethod.sortM :: ms) = findLegal ms) ∧
    (∀ ms, removeLegal (CrudMethod.sortM :: ms) = removeLegal ms) ∧
    (∀ ms, modifyLegal (CrudMethod.sortM :: ms) = modifyLegal ms) ∧
    findLegal [CrudMethod.limitM, CrudMethod.offsetM, CrudMethod.bindM,
      CrudMethod.executeM] = true ∧
    removeLegal [CrudMethod.limitM, CrudMethod.bindM,
      CrudMethod.executeM] = true ∧
    modifyLegal [CrudMethod.limitM, CrudMethod.bindM,
      CrudMethod.executeM] = true ∧
    findLegal [CrudMethod.offsetM, CrudMethod.bindM,
      CrudMethod.executeM] = true ∧
    findLegal [CrudMethod.limitM, CrudMethod.sortM] = false ∧
    findLegal [CrudMethod.offsetM, CrudMethod.limitM] = false ∧
    removeLegal [CrudMethod.limitM, CrudMethod.sortM] = false := by
  refine ⟨fun ms => rfl, fun ms => rfl, fun ms => rfl, ?_, ?_, ?_, ?_,
    ?_, ?_, ?_⟩ <;> decide

/-- C10: move-constructing a `CollectionAdd` preserves both the collection
reference and the accumulated document list, and every builder reachable by
chained calls and moves still refers to the collection of its entry-point
builder. -/
theorem move_preserves_collection (b : CollectionAddBase) (st : CollectionAdd)
    (h : ReachableAdd b st) :
    st.moveCtor.m_coll = st.m_coll ∧ st.moveCtor.docs = st.docs ∧
    st.m_coll = b.m_coll := by
  refine ⟨rfl, rfl, ?_⟩
  induction h with
  | first d => rfl
  | step st d hr ih => simpa [CollectionAdd.do_add] using ih
  | move st hr ih => simpa [CollectionAdd.moveCtor] using ih

theorem move_preserves_collection_witness :
    (((CollectionAddBase.mk 5).do_add (Doc.json "j")).moveCtor).m_coll =
      ((CollectionAddBase.mk 5).do_add (Doc.json "j")).m_coll ∧
    (((CollectionAddBase.mk 5).do_add (Doc.json "j")).moveCtor).docs =
      ((CollectionAddBase.mk 5).do_add (Doc.json "j")).docs ∧
    ((CollectionAddBase.mk 5).do_add (Doc.json "j")).m_coll =
      (CollectionAddBase.mk 5).m_coll :=
  move_preserves_collection (CollectionAddBase.mk 5)
    ((CollectionAddBase.mk 5).do_add (Doc.json "j"))
    (ReachableAdd.first (Doc.json "j"))

end MysqlxCrud
